import Mathlib

/-!
Shallow embedding of the numeric core of the CNN structure visualizer:
the convolution engine (`applyConvolution`) and the patch forward
pipeline of the structure visualizer component (feature map, pooling,
flatten, dense layer, softmax).  Machine numbers are modelled as exact
rationals (reals for the softmax stage); byte stores into a
`Uint8ClampedArray` are modelled by `clampStore` (clamp to `[0, 255]`,
round to nearest, ties to even).
-/

/-- Truncation of a rational toward zero, as JavaScript truncates the
quotient when evaluating the remainder operator on numbers. -/
def ratTrunc (q : ℚ) : ℤ := if 0 ≤ q then ⌊q⌋ else -⌊-q⌋

/-- The JavaScript remainder operator on exact numbers: the result keeps
the sign of the dividend.  The source only ever uses it with divisor
`255`. -/
def jsMod (a b : ℚ) : ℚ := a - b * ratTrunc (a / b)

/-- Rounding to the nearest integer with ties to even, the rounding a
`Uint8ClampedArray` applies when a number is stored into a cell. -/
def jsRound (q : ℚ) : ℤ :=
  if q - ⌊q⌋ < 1 / 2 then ⌊q⌋
  else if 1 / 2 < q - ⌊q⌋ then ⌊q⌋ + 1
  else if ⌊q⌋ % 2 = 0 then ⌊q⌋ else ⌊q⌋ + 1

/-- Storing a number into a `Uint8ClampedArray` cell: clamp to
`[0, 255]`, then round to the nearest integer (ties to even). -/
def clampStore (q : ℚ) : ℕ :=
  if q ≤ 0 then 0 else if 255 ≤ q then 255 else (jsRound q).toNat

theorem jsRound_intCast (n : ℤ) : jsRound (n : ℚ) = n := by
  simp [jsRound]

theorem jsRound_le_floor_add_one (q : ℚ) : jsRound q ≤ ⌊q⌋ + 1 := by
  unfold jsRound
  split
  · omega
  · split
    · omega
    · split <;> omega

theorem clampStore_le (q : ℚ) : clampStore q ≤ 255 := by
  unfold clampStore
  split
  · exact Nat.zero_le 255
  · split
    · exact le_refl 255
    · rename_i h0 h255
      have hq : q < 255 := lt_of_not_le h255
      have hfl : (⌊q⌋ : ℚ) ≤ q := Int.floor_le q
      have h1 : (⌊q⌋ : ℚ) < 255 := lt_of_le_of_lt hfl hq
      have h2 : ⌊q⌋ < 255 := by exact_mod_cast h1
      have h3 : jsRound q ≤ 255 := le_trans (jsRound_le_floor_add_one q) (by omega)
      omega

theorem clampStore_natCast (n : ℕ) (h : n ≤ 255) : clampStore (n : ℚ) = n := by
  unfold clampStore
  split
  · rename_i h0
    have : n = 0 := by exact_mod_cast le_antisymm (by exact_mod_cast h0) (by positivity)
    omega
  · split
    · rename_i h0 h255
      have : (255 : ℕ) ≤ n := by exact_mod_cast h255
      omega
    · rw [show ((n : ℚ)) = ((n : ℤ) : ℚ) by norm_cast, jsRound_intCast]
      simp

/-- An RGBA image buffer as handed to `applyConvolution`: `data` models
the bytes of the backing `Uint8ClampedArray`, addressed as
`(y * width + x) * 4 + channel`. -/
structure ImgData where
  width : ℕ
  height : ℕ
  data : ℕ → Fin 256

/-- The `KernelMatrix` type of the source: a fixed 3×3 matrix of
numbers. -/
abbrev KernelMatrix := Fin 3 → Fin 3 → ℚ

/-- The `ProcessingOptions` record of the source. -/
structure ProcessingOptions where
  useGrayscale : Bool
  useReLU : Bool
  normalize : Bool

/-- Reading one input channel byte at pixel `(px, py)` as a number. -/
def pixAt (img : ImgData) (px py : ℤ) (c : ℕ) : ℚ :=
  ((img.data ((py.toNat * img.width + px.toNat) * 4 + c) : ℕ) : ℚ)

/-- Kernel entry `kernel[a][b]` for integer indices; out-of-range
indices read `0` (the engine only ever uses in-range indices). -/
def kernelAtZ (k : KernelMatrix) (a b : ℤ) : ℚ :=
  if h : 0 ≤ a ∧ a < 3 ∧ 0 ≤ b ∧ b < 3 then
    k ⟨a.toNat, by omega⟩ ⟨b.toNat, by omega⟩
  else 0

/-- One term of the convolution accumulation at output pixel `(x, y)`
and channel `c`, for kernel offset `(ky, kx)`: the source's bounds check
makes an out-of-bounds neighbour contribute zero. -/
def tapZ (img : ImgData) (k : KernelMatrix) (x y c : ℕ) (ky kx : ℤ) : ℚ :=
  let py : ℤ := (y : ℤ) + ky
  let px : ℤ := (x : ℤ) + kx
  if 0 ≤ px ∧ px < (img.width : ℤ) ∧ 0 ≤ py ∧ py < (img.height : ℤ) then
    pixAt img px py c * kernelAtZ k (ky + 1) (kx + 1)
  else 0

/-- The convolution accumulator (`r`, `g` or `b`) of `applyConvolution`:
the nine kernel taps added in the loop order of the source, starting
from `0`. -/
def convAccum (img : ImgData) (k : KernelMatrix) (x y c : ℕ) : ℚ :=
  0 + tapZ img k x y c (-1) (-1) + tapZ img k x y c (-1) 0 + tapZ img k x y c (-1) 1
    + tapZ img k x y c 0 (-1) + tapZ img k x y c 0 0 + tapZ img k x y c 0 1
    + tapZ img k x y c 1 (-1) + tapZ img k x y c 1 0 + tapZ img k x y c 1 1

/-- The specification's convolution sum: over kernel offsets
`ky, kx ∈ {-1, 0, 1}`, the term `kernel[ky+1][kx+1] * input[y+ky][x+kx][c]`,
with terms whose neighbour position lies outside the image omitted
(contributing exactly zero), and no division by the kernel weight sum. -/
def specConvSum (img : ImgData) (k : KernelMatrix) (x y c : ℕ) : ℚ :=
  ∑ ky ∈ ({-1, 0, 1} : Finset ℤ), ∑ kx ∈ ({-1, 0, 1} : Finset ℤ),
    if 0 ≤ (x : ℤ) + kx ∧ (x : ℤ) + kx < (img.width : ℤ) ∧
       0 ≤ (y : ℤ) + ky ∧ (y : ℤ) + ky < (img.height : ℤ) then
      kernelAtZ k (ky + 1) (kx + 1) * pixAt img ((x : ℤ) + kx) ((y : ℤ) + ky) c
    else 0

theorem sum_pm_one (f : ℤ → ℚ) :
    (∑ z ∈ ({-1, 0, 1} : Finset ℤ), f z) = f (-1) + f 0 + f 1 := by
  rw [show ({-1, 0, 1} : Finset ℤ) = insert (-1) (insert 0 {1}) from rfl,
    Finset.sum_insert (by decide), Finset.sum_insert (by decide), Finset.sum_singleton]
  ring

theorem tapZ_comm (img : ImgData) (k : KernelMatrix) (x y c : ℕ) (ky kx : ℤ) :
    tapZ img k x y c ky kx =
      if 0 ≤ (x : ℤ) + kx ∧ (x : ℤ) + kx < (img.width : ℤ) ∧
         0 ≤ (y : ℤ) + ky ∧ (y : ℤ) + ky < (img.height : ℤ) then
        kernelAtZ k (ky + 1) (kx + 1) * pixAt img ((x : ℤ) + kx) ((y : ℤ) + ky) c
      else 0 := by
  simp only [tapZ]
  split
  · ring
  · rfl

/-- C1: for every image, kernel and output pixel and channel, the
pre-activation value accumulated by the convolution loop equals the sum
over `ky, kx ∈ {-1, 0, 1}` of `kernel[ky+1][kx+1] * input[y+ky][x+kx][c]`
with out-of-bounds terms omitted; the right-hand side applies no
division by the kernel weight sum (the source computes `kSum` but never
uses it). -/
theorem convAccum_eq_specConvSum (img : ImgData) (k : KernelMatrix) (x y c : ℕ) :
    convAccum img k x y c = specConvSum img k x y c := by
  unfold specConvSum
  rw [sum_pm_one]
  rw [sum_pm_one, sum_pm_one, sum_pm_one]
  unfold convAccum
  simp only [tapZ_comm]
  ring

/-- The activation step of `applyConvolution`: `Math.max(0, v)` when
`useReLU` is set, `Math.abs(v)` otherwise. -/
def activate (useReLU : Bool) (v : ℚ) : ℚ := if useReLU then max 0 v else |v|

/-- One channel after the activation step, before grayscale. -/
def chanAct (img : ImgData) (k : KernelMatrix) (o : ProcessingOptions)
    (x y c : ℕ) : ℚ :=
  activate o.useReLU (convAccum img k x y c)

/-- The value of channel `c` at pixel `(x, y)` just before it is stored:
activation, then the optional three-way grayscale average. -/
def postVal (img : ImgData) (k : KernelMatrix) (o : ProcessingOptions)
    (x y : ℕ) (c : Fin 3) : ℚ :=
  if o.useGrayscale then
    (chanAct img k o x y 0 + chanAct img k o x y 1 + chanAct img k o x y 2) / 3
  else chanAct img k o x y (c : ℕ)

/-- The byte actually stored for channel `c` of pixel `(x, y)` before
the optional normalization pass. -/
def preNorm (img : ImgData) (k : KernelMatrix) (o : ProcessingOptions)
    (x y : ℕ) (c : Fin 3) : ℕ :=
  clampStore (postVal img k o x y c)

/-- The stored R, G, B bytes of the whole output buffer in array order,
exactly the values the normalization pass scans (alpha is skipped). -/
def rgbList (img : ImgData) (k : KernelMatrix) (o : ProcessingOptions) : List ℕ :=
  (List.range img.height).flatMap fun y =>
    (List.range img.width).flatMap fun x =>
      [preNorm img k o x y 0, preNorm img k o x y 1, preNorm img k o x y 2]

/-- The `min` computed by the normalization pass, starting from 255. -/
def minStored (img : ImgData) (k : KernelMatrix) (o : ProcessingOptions) : ℕ :=
  (rgbList img k o).foldl min 255

/-- The `max` computed by the normalization pass, starting from 0. -/
def maxStored (img : ImgData) (k : KernelMatrix) (o : ProcessingOptions) : ℕ :=
  (rgbList img k o).foldl max 0

/-- `applyConvolution` of the source, as the byte of channel `c` of
output pixel `(x, y)`: channels 0..2 go through convolution, activation,
optional grayscale, clamped store and the optional normalization rescale
(`range > 0` guards the rescale); channel 3 (alpha) is always 255. -/
def applyConvolution (img : ImgData) (k : KernelMatrix) (o : ProcessingOptions)
    (x y : ℕ) (c : Fin 4) : ℕ :=
  if h : (c : ℕ) < 3 then
    let v := preNorm img k o x y ⟨(c : ℕ), h⟩
    if o.normalize = true ∧ minStored img k o < maxStored img k o then
      clampStore ((((v : ℚ) - (minStored img k o : ℚ)) /
        ((maxStored img k o : ℚ) - (minStored img k o : ℚ))) * 255)
    else v
  else 255

theorem applyConvolution_rgb (img : ImgData) (k : KernelMatrix)
    (o : ProcessingOptions) (x y : ℕ) (c : Fin 3) :
    applyConvolution img k o x y c.castSucc =
      if o.normalize = true ∧ minStored img k o < maxStored img k o then
        clampStore ((((preNorm img k o x y c : ℚ) - (minStored img k o : ℚ)) /
          ((maxStored img k o : ℚ) - (minStored img k o : ℚ))) * 255)
      else preNorm img k o x y c := by
  have hc : ((c.castSucc : Fin 4) : ℕ) < 3 := by simp [Fin.coe_castSucc, c.isLt]
  rw [applyConvolution, dif_pos hc]
  have : (⟨((c.castSucc : Fin 4) : ℕ), hc⟩ : Fin 3) = c := by
    apply Fin.ext
    simp [Fin.coe_castSucc]
  rw [this]

theorem applyConvolution_alpha (img : ImgData) (k : KernelMatrix)
    (o : ProcessingOptions) (x y : ℕ) :
    applyConvolution img k o x y 3 = 255 := by
  rw [applyConvolution, dif_neg]
  decide

/-- The identity kernel of `constants.ts`. -/
def IDENTITY_KERNEL : KernelMatrix := ![![0, 0, 0], ![0, 1, 0], ![0, 0, 0]]

theorem convAccum_identity (img : ImgData) (x y c : ℕ)
    (hx : x < img.width) (hy : y < img.height) :
    convAccum img IDENTITY_KERNEL x y c = pixAt img x y c := by
  have hmid : tapZ img IDENTITY_KERNEL x y c 0 0 = pixAt img x y c := by
    simp only [tapZ]
    rw [if_pos, show kernelAtZ IDENTITY_KERNEL (0 + 1) (0 + 1) = 1 from by decide]
    · rw [add_zero, add_zero, mul_one]
    · refine ⟨by positivity, by exact_mod_cast by omega, by positivity, by exact_mod_cast by omega⟩
  have hz : ∀ ky kx : ℤ, kernelAtZ IDENTITY_KERNEL (ky + 1) (kx + 1) = 0 →
      tapZ img IDENTITY_KERNEL x y c ky kx = 0 := by
    intro ky kx hk
    simp only [tapZ, hk, mul_zero, ite_self]
  rw [convAccum, hmid,
    hz (-1) (-1) (by decide), hz (-1) 0 (by decide), hz (-1) 1 (by decide),
    hz 0 (-1) (by decide), hz 0 1 (by decide),
    hz 1 (-1) (by decide), hz 1 0 (by decide), hz 1 1 (by decide)]
  ring

/-- C3: convolving any image with the identity kernel
`[[0,0,0],[0,1,0],[0,0,0]]` under `useReLU = true`,
`useGrayscale = false`, `normalize = false` reproduces the input image
exactly at every pixel and channel (the alpha hypothesis records the
ImageBuffer invariant that alpha is 255). -/
theorem identity_kernel_reproduces (img : ImgData)
    (halpha : ∀ x y : ℕ, x < img.width → y < img.height →
      (img.data ((y * img.width + x) * 4 + 3) : ℕ) = 255) :
    ∀ x : ℕ, x < img.width → ∀ y : ℕ, y < img.height → ∀ c : Fin 4,
      applyConvolution img IDENTITY_KERNEL ⟨false, true, false⟩ x y c =
        (img.data ((y * img.width + x) * 4 + (c : ℕ)) : ℕ) := by
  intro x hx y hy c
  by_cases h3 : (c : ℕ) < 3
  · have hcast : c = (⟨(c : ℕ), h3⟩ : Fin 3).castSucc := by
      apply Fin.ext
      simp [Fin.coe_castSucc]
    rw [hcast, applyConvolution_rgb]
    have hfalse : ¬ ((⟨false, true, false⟩ : ProcessingOptions).normalize = true ∧
        minStored img IDENTITY_KERNEL ⟨false, true, false⟩ <
          maxStored img IDENTITY_KERNEL ⟨false, true, false⟩) := by
      rintro ⟨hfa, -⟩
      exact Bool.false_ne_true hfa
    rw [if_neg hfalse]
    rw [preNorm, postVal]
    rw [if_neg (by exact Bool.false_ne_true)]
    rw [chanAct, convAccum_identity img x y _ hx hy]
    rw [show activate (⟨false, true, false⟩ : ProcessingOptions).useReLU
          (pixAt img x y ((⟨(c : ℕ), h3⟩ : Fin 3) : ℕ)) =
        pixAt img x y ((⟨(c : ℕ), h3⟩ : Fin 3) : ℕ) from by
      simp [activate, pixAt, max_eq_right]]
    rw [pixAt, Int.toNat_natCast, Int.toNat_natCast]
    exact clampStore_natCast _ (by omega)
  · have hc : c = 3 := by
      apply Fin.ext
      omega
    rw [hc, applyConvolution_alpha]
    exact (halpha x y hx hy).symm

/-- A concrete 1×1 image used to witness the identity-kernel theorem. -/
def witImg : ImgData :=
  ⟨1, 1, fun i => if i = 0 then 7 else if i = 1 then 8 else if i = 2 then 9 else 255⟩

/-- Witness for C3: the identity-kernel theorem applied to a concrete
1×1 image whose alpha byte is 255, checked on the red channel. -/
theorem identity_kernel_reproduces_witness :
    applyConvolution witImg IDENTITY_KERNEL ⟨false, true, false⟩ 0 0 0 = 7 := by
  have halpha : ∀ x y : ℕ, x < witImg.width → y < witImg.height →
      (witImg.data ((y * witImg.width + x) * 4 + 3) : ℕ) = 255 := by
    intro x y hx hy
    have hx0 : x = 0 := by
      have : witImg.width = 1 := rfl
      omega
    have hy0 : y = 0 := by
      have : witImg.height = 1 := rfl
      omega
    subst hx0
    subst hy0
    decide
  have h := identity_kernel_reproduces witImg halpha 0 (by decide) 0 (by decide) 0
  exact h.trans (by decide)

/-- Reading `inputPatch[i]?.[j] || 0` of the source: a missing row or a
missing cell reads as zero. -/
def patchAt (p : List (List ℚ)) (i j : ℕ) : ℚ := (p.getD i []).getD j 0

/-- The raw 2×2 feature map of the structure visualizer: for output
position `(y, x)`, the sum over `ky, kx ∈ 0..2` of
`inputPatch[y+ky][x+kx] * kernel[ky][kx]`, missing cells read as 0. -/
def rawMap (p : List (List ℚ)) (k : KernelMatrix) (y x : Fin 2) : ℚ :=
  ∑ ky : Fin 3, ∑ kx : Fin 3,
    patchAt p ((y : ℕ) + (ky : ℕ)) ((x : ℕ) + (kx : ℕ)) * k ky kx

/-- The activated feature map: `useReLU ? max(0, sum) : sum` — the
non-ReLU branch passes the raw signed value through unchanged. -/
def activatedMap (p : List (List ℚ)) (k : KernelMatrix) (useReLU : Bool)
    (y x : Fin 2) : ℚ :=
  if useReLU then max 0 (rawMap p k y x) else rawMap p k y x

/-- `pooledValue` of the source: collect the four activated feature-map
values, take their max for mode `"max"`, their mean for `"average"`,
and otherwise fall back to `vals[0]`. -/
def pooledValue (m : Fin 2 → Fin 2 → ℚ) (mode : String) : ℚ :=
  let v0 := m 0 0
  let v1 := m 0 1
  let v2 := m 1 0
  let v3 := m 1 1
  if mode = "max" then max (max (max v0 v1) v2) v3
  else if mode = "average" then (0 + v0 + v1 + v2 + v3) / 4
  else v0

/-- `flatVector` of the source: the four synthetic channels derived from
the pooled scalar. -/
def flatVector (p : ℚ) : List ℚ :=
  let v1 := p
  let v2 := |255 - p|
  let v3 := jsMod (p * 1.5) 255
  let v4 := p / 2
  [v1, v2, v3, v4]

/-- The fixed dense-layer weight matrix `fcWeights` (input index ×
output class) of the source; a Lean constant, never mutated. -/
def fcWeights : Fin 4 → Fin 4 → ℚ :=
  ![![0.8, -0.5, 0.2, 0.1],
    ![-0.4, 0.9, -0.1, -0.3],
    ![0.5, -0.2, 0.8, 0.2],
    ![0.1, 0.3, 0.1, 0.9]]

/-- The fixed dense-layer bias vector `fcBiases` of the source. -/
def fcBiases : Fin 4 → ℚ := ![10, -5, 0, 5]

/-- `logits` of the source: start the accumulator at `fcBiases[c]` and
add `flatVector[i] * fcWeights[i][c]` for `i = 0, 1, 2, 3` in order. -/
def logits (flat : Fin 4 → ℚ) (c : Fin 4) : ℚ :=
  fcBiases c + flat 0 * fcWeights 0 c + flat 1 * fcWeights 1 c
    + flat 2 * fcWeights 2 c + flat 3 * fcWeights 3 c

/-- `probabilities` of the source: numerically-stable softmax with
temperature 100, scaled to percent. -/
noncomputable def probabilities (l : Fin 4 → ℝ) (c : Fin 4) : ℝ :=
  let maxLogit := max (max (max (l 0) (l 1)) (l 2)) (l 3)
  Real.exp ((l c - maxLogit) / 100) /
    (∑ i : Fin 4, Real.exp ((l i - maxLogit) / 100)) * 100

theorem applyConvolution_plain (img : ImgData) (k : KernelMatrix) (relu : Bool)
    (x y : ℕ) (c : Fin 3) :
    applyConvolution img k ⟨false, relu, false⟩ x y c.castSucc =
      clampStore (activate relu (convAccum img k x y (c : ℕ))) := by
  rw [applyConvolution_rgb, if_neg, preNorm, postVal, if_neg]
  · rfl
  · exact Bool.false_ne_true
  · rintro ⟨hfa, -⟩
    exact Bool.false_ne_true hfa

/-- C4: the two components treat the non-ReLU branch asymmetrically.
With `useReLU = false` (and grayscale and normalization off) the
convolution engine stores the absolute value of the convolution sum,
while the patch pipeline's activated feature map passes the raw signed
sum through unchanged; with `useReLU = true` both store
`max(0, sum)`. -/
theorem nonReLU_branch_asymmetry (img : ImgData) (k : KernelMatrix) (x y : ℕ)
    (c : Fin 3) (p : List (List ℚ)) (k2 : KernelMatrix) (i j : Fin 2) :
    applyConvolution img k ⟨false, false, false⟩ x y c.castSucc =
      clampStore |convAccum img k x y (c : ℕ)| ∧
    applyConvolution img k ⟨false, true, false⟩ x y c.castSucc =
      clampStore (max 0 (convAccum img k x y (c : ℕ))) ∧
    activatedMap p k2 false i j = rawMap p k2 i j ∧
    activatedMap p k2 true i j = max 0 (rawMap p k2 i j) := by
  refine ⟨?_, ?_, ?_, ?_⟩
  · rw [applyConvolution_plain]
    simp [activate]
  · rw [applyConvolution_plain]
    simp [activate]
  · simp [activatedMap]
  · simp [activatedMap]

/-- C7: the flatten stage returns exactly the four-element vector
`[p, |255 - p|, (p * 1.5) % 255, p / 2]`, where `%` is the JavaScript
remainder (sign of the dividend). -/
theorem flatVector_formulas (p : ℚ) :
    (flatVector p).length = 4 ∧
    (flatVector p).getD 0 0 = p ∧
    (flatVector p).getD 1 0 = |255 - p| ∧
    (flatVector p).getD 2 0 = jsMod (p * 1.5) 255 ∧
    (flatVector p).getD 3 0 = p / 2 := by
  refine ⟨rfl, rfl, rfl, rfl, rfl⟩

/-- C8: the dense stage computes
`logits[c] = bias[c] + Σ_{i<4} flatten[i] * weight[i][c]` with the fixed
constant weight matrix and bias vector. -/
theorem logits_dense_formula (flat : Fin 4 → ℚ) (c : Fin 4) :
    logits flat c = fcBiases c + ∑ i : Fin 4, flat i * fcWeights i c := by
  rw [Fin.sum_univ_four, logits]
  ring

theorem avg_four_le_max_four (a b c d : ℚ) :
    (0 + a + b + c + d) / 4 ≤ max (max (max a b) c) d := by
  have ha : a ≤ max (max (max a b) c) d :=
    le_trans (le_trans (le_max_left a b) (le_max_left _ c)) (le_max_left _ d)
  have hb : b ≤ max (max (max a b) c) d :=
    le_trans (le_trans (le_max_right a b) (le_max_left _ c)) (le_max_left _ d)
  have hc : c ≤ max (max (max a b) c) d :=
    le_trans (le_max_right _ c) (le_max_left _ d)
  have hd : d ≤ max (max (max a b) c) d := le_max_right _ d
  linarith

/-- C9: for every patch, kernel and ReLU setting, average pooling of the
four activated feature-map values never exceeds max pooling of the same
four values. -/
theorem average_pool_le_max_pool (p : List (List ℚ)) (k : KernelMatrix)
    (useReLU : Bool) :
    pooledValue (activatedMap p k useReLU) "average" ≤
      pooledValue (activatedMap p k useReLU) "max" := by
  rw [pooledValue, pooledValue]
  rw [if_neg (by decide), if_pos rfl, if_pos rfl]
  exact avg_four_le_max_four _ _ _ _

/-- Counterexample for C2: at the concrete unrecognized pooling mode
`"median"` the pipeline does not fail — it silently returns the first
feature-map value (`vals[0] = 7` here), and with the concrete ill-shaped
(empty) patch the feature map reads every missing cell as zero and
yields `0` instead of failing.  This refutes the claim that such inputs
fail with a configuration error leaving no result. -/
theorem pooling_mode_no_failure_counterexample :
    pooledValue (fun _ _ => (7 : ℚ)) "median" = 7 ∧
    rawMap ([] : List (List ℚ)) IDENTITY_KERNEL 0 0 = 0 := by
  constructor
  · rw [pooledValue]
    rw [if_neg (by decide), if_neg (by decide)]
  · rw [rawMap]
    simp [patchAt]

/-- C2 (amended): the patch forward pipeline is total and never raises a
configuration error.  A pooling mode other than `"max"` and `"average"`
silently falls back to the first activated feature-map value
`map[0][0]`, and missing patch cells (an ill-shaped patch) are silently
read as zero; only the TypeScript type of `PoolingMode` keeps well-typed
callers to the two recognized modes. -/
theorem pooling_mode_fallback (m : Fin 2 → Fin 2 → ℚ) (mode : String)
    (h1 : mode ≠ "max") (h2 : mode ≠ "average") :
    pooledValue m mode = m 0 0 ∧
    (∀ (k : KernelMatrix) (y x : Fin 2), rawMap ([] : List (List ℚ)) k y x = 0) ∧
    (∀ (p : List (List ℚ)) (i j : ℕ), (p.getD i []).length ≤ j → patchAt p i j = 0) := by
  refine ⟨?_, ?_, ?_⟩
  · rw [pooledValue]
    rw [if_neg h1, if_neg h2]
  · intro k y x
    rw [rawMap]
    simp [patchAt]
  · intro p i j hj
    exact List.getD_eq_default _ _ hj

/-- Witness for C2 (amended): the fallback theorem applied at the
concrete unrecognized mode `"median"` and a concrete feature map. -/
theorem pooling_mode_fallback_witness :
    ("median" ≠ "max" ∧ "median" ≠ "average") ∧
    (pooledValue (fun i j => ((i : ℕ) + 2 * (j : ℕ) : ℚ)) "median" =
        (fun i j : Fin 2 => ((i : ℕ) + 2 * (j : ℕ) : ℚ)) 0 0 ∧
      (∀ (k : KernelMatrix) (y x : Fin 2), rawMap ([] : List (List ℚ)) k y x = 0) ∧
      (∀ (p : List (List ℚ)) (i j : ℕ), (p.getD i []).length ≤ j → patchAt p i j = 0)) :=
  ⟨⟨by decide, by decide⟩,
    pooling_mode_fallback (fun i j => ((i : ℕ) + 2 * (j : ℕ) : ℚ)) "median"
      (by decide) (by decide)⟩

/-- C6: the softmax stage's four probabilities always sum to exactly 100
and each lies in `[0, 100]`. -/
theorem probabilities_sum_and_range (l : Fin 4 → ℝ) :
    (∑ c : Fin 4, probabilities l c) = 100 ∧
    ∀ c : Fin 4, 0 ≤ probabilities l c ∧ probabilities l c ≤ 100 := by
  set m := max (max (max (l 0) (l 1)) (l 2)) (l 3) with hm
  have hepos : ∀ i : Fin 4, 0 < Real.exp ((l i - m) / 100) := fun i => Real.exp_pos _
  have hsumpos : 0 < ∑ i : Fin 4, Real.exp ((l i - m) / 100) :=
    Finset.sum_pos (fun i _ => hepos i) Finset.univ_nonempty
  have hsumne : (∑ i : Fin 4, Real.exp ((l i - m) / 100)) ≠ 0 := ne_of_gt hsumpos
  have hprob : ∀ c : Fin 4, probabilities l c =
      Real.exp ((l c - m) / 100) / (∑ i : Fin 4, Real.exp ((l i - m) / 100)) * 100 :=
    fun c => rfl
  constructor
  · have hcongr : (∑ c : Fin 4, probabilities l c) =
        ∑ c : Fin 4, Real.exp ((l c - m) / 100) /
          (∑ i : Fin 4, Real.exp ((l i - m) / 100)) * 100 :=
      Finset.sum_congr rfl (fun c _ => hprob c)
    rw [hcongr, ← Finset.sum_mul, ← Finset.sum_div, div_self hsumne, one_mul]
  · intro c
    constructor
    · rw [hprob c]
      positivity
    · rw [hprob c]
      have hle : Real.exp ((l c - m) / 100) ≤ ∑ i : Fin 4, Real.exp ((l i - m) / 100) :=
        Finset.single_le_sum (fun i _ => le_of_lt (hepos i)) (Finset.mem_univ c)
      have : Real.exp ((l c - m) / 100) / (∑ i : Fin 4, Real.exp ((l i - m) / 100)) ≤ 1 :=
        (div_le_one hsumpos).mpr hle
      nlinarith

/-- C10: with `useGrayscale = true` (any ReLU and normalize settings)
every output pixel has equal R, G and B bytes: the grayscale average is
stored identically into the three channels, and the normalization pass
maps equal stored bytes to equal bytes. -/
theorem grayscale_channels_equal (img : ImgData) (k : KernelMatrix)
    (relu norm : Bool) (x y : ℕ) :
    applyConvolution img k ⟨true, relu, norm⟩ x y 0 =
      applyConvolution img k ⟨true, relu, norm⟩ x y 1 ∧
    applyConvolution img k ⟨true, relu, norm⟩ x y 1 =
      applyConvolution img k ⟨true, relu, norm⟩ x y 2 := by
  have hpre : ∀ c c2 : Fin 3, preNorm img k ⟨true, relu, norm⟩ x y c =
      preNorm img k ⟨true, relu, norm⟩ x y c2 := by
    intro c c2
    rw [preNorm, preNorm, postVal, postVal, if_pos rfl, if_pos rfl]
  have h0 : (0 : Fin 4) = (0 : Fin 3).castSucc := by decide
  have h1 : (1 : Fin 4) = (1 : Fin 3).castSucc := by decide
  have h2 : (2 : Fin 4) = (2 : Fin 3).castSucc := by decide
  constructor
  · rw [h0, h1, applyConvolution_rgb, applyConvolution_rgb, hpre 0 1]
  · rw [h1, h2, applyConvolution_rgb, applyConvolution_rgb, hpre 1 2]

theorem foldl_min_le_init (L : List ℕ) (a : ℕ) : L.foldl min a ≤ a := by
  induction L generalizing a with
  | nil => exact le_refl a
  | cons b t ih => exact le_trans (ih (min a b)) (min_le_left a b)

theorem foldl_min_le_mem (L : List ℕ) (a x : ℕ) (hx : x ∈ L) : L.foldl min a ≤ x := by
  induction L generalizing a with
  | nil => cases hx
  | cons b t ih =>
    rcases List.mem_cons.mp hx with h | h
    · subst h
      exact le_trans (foldl_min_le_init t (min a x)) (min_le_right a x)
    · exact ih (min a b) h

theorem foldl_min_eq_or_mem (L : List ℕ) (a : ℕ) :
    L.foldl min a = a ∨ L.foldl min a ∈ L := by
  induction L generalizing a with
  | nil => exact Or.inl rfl
  | cons b t ih =>
    rcases ih (min a b) with h | h
    · rcases min_choice a b with hab | hab
      · exact Or.inl (by rw [List.foldl_cons, h, hab])
      · exact Or.inr (by rw [List.foldl_cons, h, hab]; exact List.mem_cons_self b t)
    · exact Or.inr (List.mem_cons_of_mem b h)

theorem le_foldl_max_init (L : List ℕ) (a : ℕ) : a ≤ L.foldl max a := by
  induction L generalizing a with
  | nil => exact le_refl a
  | cons b t ih => exact le_trans (le_max_left a b) (ih (max a b))

theorem mem_le_foldl_max (L : List ℕ) (a x : ℕ) (hx : x ∈ L) : x ≤ L.foldl max a := by
  induction L generalizing a with
  | nil => cases hx
  | cons b t ih =>
    rcases List.mem_cons.mp hx with h | h
    · subst h
      exact le_trans (le_max_right a x) (le_foldl_max_init t (max a x))
    · exact ih (max a b) h

theorem foldl_max_eq_or_mem (L : List ℕ) (a : ℕ) :
    L.foldl max a = a ∨ L.foldl max a ∈ L := by
  induction L generalizing a with
  | nil => exact Or.inl rfl
  | cons b t ih =>
    rcases ih (max a b) with h | h
    · rcases max_choice a b with hab | hab
      · exact Or.inl (by rw [List.foldl_cons, h, hab])
      · exact Or.inr (by rw [List.foldl_cons, h, hab]; exact List.mem_cons_self b t)
    · exact Or.inr (List.mem_cons_of_mem b h)

theorem mem_rgbList (img : ImgData) (k : KernelMatrix) (o : ProcessingOptions)
    (v : ℕ) :
    v ∈ rgbList img k o ↔ ∃ x y : ℕ, x < img.width ∧ y < img.height ∧
      ∃ c : Fin 3, v = preNorm img k o x y c := by
  constructor
  · intro hv
    rw [rgbList] at hv
    simp only [List.mem_flatMap, List.mem_range, List.mem_cons,
      List.not_mem_nil, or_false] at hv
    obtain ⟨y, hy, x, hx, hmem⟩ := hv
    rcases hmem with h | h | h
    · exact ⟨x, y, hx, hy, 0, h⟩
    · exact ⟨x, y, hx, hy, 1, h⟩
    · exact ⟨x, y, hx, hy, 2, h⟩
  · rintro ⟨x, y, hx, hy, c, rfl⟩
    rw [rgbList]
    simp only [List.mem_flatMap, List.mem_range, List.mem_cons,
      List.not_mem_nil, or_false]
    refine ⟨y, hy, x, hx, ?_⟩
    fin_cases c
    · exact Or.inl rfl
    · exact Or.inr (Or.inl rfl)
    · exact Or.inr (Or.inr rfl)

theorem preNorm_le_255 (img : ImgData) (k : KernelMatrix) (o : ProcessingOptions)
    (x y : ℕ) (c : Fin 3) : preNorm img k o x y c ≤ 255 :=
  clampStore_le _

theorem minStored_le_preNorm (img : ImgData) (k : KernelMatrix)
    (o : ProcessingOptions) (x y : ℕ) (c : Fin 3)
    (hx : x < img.width) (hy : y < img.height) :
    minStored img k o ≤ preNorm img k o x y c :=
  foldl_min_le_mem _ _ _ ((mem_rgbList img k o _).mpr ⟨x, y, hx, hy, c, rfl⟩)

theorem preNorm_le_maxStored (img : ImgData) (k : KernelMatrix)
    (o : ProcessingOptions) (x y : ℕ) (c : Fin 3)
    (hx : x < img.width) (hy : y < img.height) :
    preNorm img k o x y c ≤ maxStored img k o :=
  mem_le_foldl_max _ _ _ ((mem_rgbList img k o _).mpr ⟨x, y, hx, hy, c, rfl⟩)

theorem minStored_attained (img : ImgData) (k : KernelMatrix)
    (o : ProcessingOptions) (hw : 0 < img.width) (hh : 0 < img.height) :
    ∃ x y : ℕ, x < img.width ∧ y < img.height ∧
      ∃ c : Fin 3, preNorm img k o x y c = minStored img k o := by
  rcases foldl_min_eq_or_mem (rgbList img k o) 255 with h | h
  · have h1 : minStored img k o ≤ preNorm img k o 0 0 0 :=
      minStored_le_preNorm img k o 0 0 0 hw hh
    have h2 : preNorm img k o 0 0 0 ≤ 255 := preNorm_le_255 img k o 0 0 0
    have h3 : minStored img k o = 255 := h
    exact ⟨0, 0, hw, hh, 0, by omega⟩
  · obtain ⟨x, y, hx, hy, c, hc⟩ := (mem_rgbList img k o _).mp h
    exact ⟨x, y, hx, hy, c, hc.symm⟩

theorem maxStored_attained (img : ImgData) (k : KernelMatrix)
    (o : ProcessingOptions) (hw : 0 < img.width) (hh : 0 < img.height) :
    ∃ x y : ℕ, x < img.width ∧ y < img.height ∧
      ∃ c : Fin 3, preNorm img k o x y c = maxStored img k o := by
  rcases foldl_max_eq_or_mem (rgbList img k o) 0 with h | h
  · have h1 : preNorm img k o 0 0 0 ≤ maxStored img k o :=
      preNorm_le_maxStored img k o 0 0 0 hw hh
    have h3 : maxStored img k o = 0 := h
    exact ⟨0, 0, hw, hh, 0, by omega⟩
  · obtain ⟨x, y, hx, hy, c, hc⟩ := (mem_rgbList img k o _).mp h
    exact ⟨x, y, hx, hy, c, hc.symm⟩

/-- The pre-normalization output is perfectly flat: all stored R, G, B
bytes over all pixels are equal. -/
def preFlat (img : ImgData) (k : KernelMatrix) (o : ProcessingOptions) : Prop :=
  ∀ x y x2 y2 : ℕ, ∀ c c2 : Fin 3,
    x < img.width → y < img.height → x2 < img.width → y2 < img.height →
    preNorm img k o x y c = preNorm img k o x2 y2 c2

/-- C5: for a non-empty image with `normalize = true`, unless the
pre-normalization output is perfectly flat, the returned buffer attains
the byte 0 and the byte 255 on an R/G/B channel and every R/G/B byte is
at most 255 (bytes are naturals, so 0 is also a lower bound): its
minimum channel value is 0 and its maximum is 255.  If the
pre-normalization output is flat, every channel byte is left exactly as
stored before the normalization pass. -/
theorem normalize_attains_range (img : ImgData) (k : KernelMatrix)
    (o : ProcessingOptions) (hn : o.normalize = true)
    (hw : 0 < img.width) (hh : 0 < img.height) :
    (¬ preFlat img k o →
      (∃ x y : ℕ, x < img.width ∧ y < img.height ∧
        ∃ c : Fin 3, applyConvolution img k o x y c.castSucc = 0) ∧
      (∃ x y : ℕ, x < img.width ∧ y < img.height ∧
        ∃ c : Fin 3, applyConvolution img k o x y c.castSucc = 255) ∧
      (∀ (x y : ℕ) (c : Fin 3), applyConvolution img k o x y c.castSucc ≤ 255)) ∧
    (preFlat img k o →
      ∀ (x y : ℕ) (c : Fin 3), x < img.width → y < img.height →
        applyConvolution img k o x y c.castSucc = preNorm img k o x y c) := by
  constructor
  · intro hnf
    have hlt : minStored img k o < maxStored img k o := by
      by_contra hle
      apply hnf
      intro x y x2 y2 c c2 hx hy hx2 hy2
      have l1 := minStored_le_preNorm img k o x y c hx hy
      have l2 := preNorm_le_maxStored img k o x y c hx hy
      have l3 := minStored_le_preNorm img k o x2 y2 c2 hx2 hy2
      have l4 := preNorm_le_maxStored img k o x2 y2 c2 hx2 hy2
      omega
    refine ⟨?_, ?_, ?_⟩
    · obtain ⟨x, y, hx, hy, c, hc⟩ := minStored_attained img k o hw hh
      refine ⟨x, y, hx, hy, c, ?_⟩
      rw [applyConvolution_rgb, if_pos ⟨hn, hlt⟩, hc, sub_self, zero_div, zero_mul]
      rfl
    · obtain ⟨x, y, hx, hy, c, hc⟩ := maxStored_attained img k o hw hh
      refine ⟨x, y, hx, hy, c, ?_⟩
      rw [applyConvolution_rgb, if_pos ⟨hn, hlt⟩, hc]
      have hne : ((maxStored img k o : ℚ) - (minStored img k o : ℚ)) ≠ 0 := by
        have : (minStored img k o : ℚ) < (maxStored img k o : ℚ) := by
          exact_mod_cast hlt
        exact sub_ne_zero.mpr (ne_of_gt this)
      rw [div_self hne, one_mul,
        show (255 : ℚ) = ((255 : ℕ) : ℚ) from by norm_num,
        clampStore_natCast 255 (le_refl 255)]
    · intro x y c
      rw [applyConvolution_rgb]
      split
      · exact clampStore_le _
      · exact preNorm_le_255 img k o x y c
  · intro hfl x y c hx hy
    have hnlt : ¬ (minStored img k o < maxStored img k o) := by
      have hall : ∀ v ∈ rgbList img k o, v = preNorm img k o 0 0 0 := by
        intro v hv
        obtain ⟨x2, y2, hx2, hy2, c2, rfl⟩ := (mem_rgbList img k o v).mp hv
        exact hfl x2 y2 0 0 c2 0 hx2 hy2 hw hh
      have hminle : minStored img k o ≤ preNorm img k o 0 0 0 :=
        minStored_le_preNorm img k o 0 0 0 hw hh
      have hmaxge : preNorm img k o 0 0 0 ≤ maxStored img k o :=
        preNorm_le_maxStored img k o 0 0 0 hw hh
      have hmin : minStored img k o = preNorm img k o 0 0 0 := by
        rcases foldl_min_eq_or_mem (rgbList img k o) 255 with h | h
        · have h2 : preNorm img k o 0 0 0 ≤ 255 := preNorm_le_255 img k o 0 0 0
          have h3 : minStored img k o = 255 := h
          omega
        · exact hall _ h
      have hmax : maxStored img k o = preNorm img k o 0 0 0 := by
        rcases foldl_max_eq_or_mem (rgbList img k o) 0 with h | h
        · have h3 : maxStored img k o = 0 := h
          omega
        · exact hall _ h
      omega
    rw [applyConvolution_rgb, if_neg]
    rintro ⟨-, h⟩
    exact hnlt h

/-- A concrete 2×1 image (one black pixel, one light pixel) used to
witness the normalization theorem. -/
def witImgN : ImgData := ⟨2, 1, fun i => if i < 4 then 0 else 200⟩

/-- Witness for C5: the normalization theorem applied to a concrete
non-empty image with `normalize = true`. -/
theorem normalize_attains_range_witness :
    ((⟨false, true, true⟩ : ProcessingOptions).normalize = true ∧
      0 < witImgN.width ∧ 0 < witImgN.height) ∧
    ((¬ preFlat witImgN IDENTITY_KERNEL ⟨false, true, true⟩ →
      (∃ x y : ℕ, x < witImgN.width ∧ y < witImgN.height ∧
        ∃ c : Fin 3, applyConvolution witImgN IDENTITY_KERNEL
          ⟨false, true, true⟩ x y c.castSucc = 0) ∧
      (∃ x y : ℕ, x < witImgN.width ∧ y < witImgN.height ∧
        ∃ c : Fin 3, applyConvolution witImgN IDENTITY_KERNEL
          ⟨false, true, true⟩ x y c.castSucc = 255) ∧
      (∀ (x y : ℕ) (c : Fin 3), applyConvolution witImgN IDENTITY_KERNEL
          ⟨false, true, true⟩ x y c.castSucc ≤ 255)) ∧
    (preFlat witImgN IDENTITY_KERNEL ⟨false, true, true⟩ →
      ∀ (x y : ℕ) (c : Fin 3), x < witImgN.width → y < witImgN.height →
        applyConvolution witImgN IDENTITY_KERNEL ⟨false, true, true⟩ x y c.castSucc =
          preNorm witImgN IDENTITY_KERNEL ⟨false, true, true⟩ x y c)) :=
  ⟨⟨rfl, by decide, by decide⟩,
    normalize_attains_range witImgN IDENTITY_KERNEL ⟨false, true, true⟩ rfl
      (by decide) (by decide)⟩
